import Mathlib

set_option maxHeartbeats 1000000

/-!
Verification development for the archodex-backend resource/event graph
ingestion engine.  The Rust sources under `src/` are shallowly embedded:
pure statement-compilation functions become Lean functions over explicit
statement lists, the mutable prefix array of `upsert_resource_tree_node`
becomes explicit state passing, timestamps become opaque `Nat` values, and
the AES-128-GCM cipher of the report credential codec (an external crate)
becomes a parameter bundled with its documented contract.
-/

namespace Archodex

/-- `ResourceId` from src/src/report.rs: one typed segment `{type, id}`.
An effective (composite) resource id is a `List ResourceId`, mirroring the
SurrealDB array the Rust code builds in its `prefix` accumulator. -/
structure ResourceId where
  type : String
  id : String
deriving DecidableEq

/-- `ResourceTreeNode` from src/src/report.rs.  `attributes` is the
submitted JSON map, modelled as an association list with opaque (string)
values, since the compiler only inspects presence and emptiness and passes
the map through verbatim. -/
inductive ResourceTreeNode where
  | mk (id : ResourceId) (globally_unique : Option Bool)
      (first_seen_at last_seen_at : Nat)
      (attributes : Option (List (String × String)))
      (contains : Option (List ResourceTreeNode))

/-- Values appearing in compiled statements (a fragment of
`surrealdb::sql::Value` restricted to what report.rs emits). -/
inductive Val where
  | arr (ids : List ResourceId)
  | thing (tbl : String) (ids : List ResourceId)
  | time (t : Nat)
  | str (s : String)
deriving DecidableEq

/-- Compiled statements, mirroring the statement objects report.rs builds:
`InsertStatement` (with its `into` table, `relation` flag, `data` values
expression and `update` on-conflict expression, whose operator is always
`Operator::Equal`) and the attributes `UpdateStatement` with a
`MergeExpression`, plus the transaction `BEGIN`/`COMMIT` markers. -/
inductive Stmt where
  | begin
  | commit
  | insertStmt (into : String) (relation : Bool)
      (data : List (String × Val)) (update : List (String × Val))
  | updateMerge (tbl : String) (key : List ResourceId)
      (mergeData : List (String × List (String × String)))
deriving DecidableEq

/-- `Event` from src/src/report.rs. -/
structure Event where
  type : String
  first_seen_at : Nat
  last_seen_at : Nat
deriving DecidableEq

/-- `EventsReport` from src/src/report.rs: principals and resources are
full composite resource ids. -/
structure EventsReport where
  principals : List (List ResourceId)
  resources : List (List ResourceId)
  events : List Event
deriving DecidableEq

/-- The `match resource_tree_node.globally_unique { Some(true) => .., _ => .. }`
discrimination of src/src/report.rs line 88. -/
def isGloballyUnique (gu : Option Bool) : Bool :=
  match gu with
  | some true => true
  | _ => false

mutual

/-- `upsert_resource_tree_node` from src/src/report.rs, with the `&mut`
query builder and `&mut` prefix array turned into explicit state passing.
Returns the extended statement list together with the caller-visible value
of the prefix after the call (the Rust function pushes the node segment,
recurses, then pops; a globally-unique node redirects push/pop onto a
fresh empty array). -/
def upsertResourceTreeNode (query : List Stmt) (pfx : List ResourceId)
    (node : ResourceTreeNode) : List Stmt × List ResourceId :=
  match node with
  | .mk id gu fsa lsa attributes contains =>
    -- let prefix = match globally_unique { Some(true) => fresh, _ => caller's }
    let isGU : Bool := isGloballyUnique gu
    let p0 : List ResourceId := if isGU then [] else pfx
    -- prefix.push(node.id)
    let p1 := p0 ++ [id]
    -- INSERT INTO resource (id, first_seen_at, last_seen_at) VALUES ...
    --   ON DUPLICATE KEY UPDATE last_seen_at = ...
    let q1 := query ++ [Stmt.insertStmt "resource" false
      [("id", Val.arr p1), ("first_seen_at", Val.time fsa),
        ("last_seen_at", Val.time lsa)]
      [("last_seen_at", Val.time lsa)]]
    -- if let Some(attributes) = ... { if !attributes.is_empty() { UPDATE ... MERGE } }
    let q2 := match attributes with
      | some a => if a.isEmpty then q1
          else q1 ++ [Stmt.updateMerge "resource" p1 [("attributes", a)]]
      | none => q1
    -- recurse into children
    let qp := match contains with
      | some children => upsertChildren q2 p1 children
      | none => (q2, p1)
    -- let out = prefix.clone(); prefix.pop(); let in = prefix.clone();
    let out := qp.2
    let p2 := qp.2.dropLast
    let q3 := qp.1 ++ [Stmt.insertStmt "contains" true
      [("in", Val.thing "resource" p2), ("out", Val.thing "resource" out),
        ("first_seen_at", Val.time fsa), ("last_seen_at", Val.time lsa)]
      [("last_seen_at", Val.time lsa)]]
    (q3, if isGU then pfx else p2)

/-- The `for child in children` recursion loop of
`upsert_resource_tree_node`. -/
def upsertChildren (query : List Stmt) (pfx : List ResourceId) :
    List ResourceTreeNode → List Stmt × List ResourceId
  | [] => (query, pfx)
  | c :: cs =>
    let qp := upsertResourceTreeNode query pfx c
    upsertChildren qp.1 qp.2 cs

end

/-- The event upsert statement for one (principal, resource, event) triple
(the body of the innermost loop of `upsert_events`). -/
def eventStmt (principal resource : List ResourceId) (e : Event) : Stmt :=
  Stmt.insertStmt "event" true
    [("in", Val.thing "resource" principal),
      ("out", Val.thing "resource" resource),
      ("type", Val.str e.type),
      ("first_seen_at", Val.time e.first_seen_at),
      ("last_seen_at", Val.time e.last_seen_at)]
    [("last_seen_at", Val.time e.last_seen_at)]

/-- `upsert_events` from src/src/report.rs: three nested loops over
principals, resources and events, appending one event-edge insert per
triple. -/
def upsertEvents (query : List Stmt) (report : EventsReport) : List Stmt :=
  report.principals.foldl (fun q principal =>
    report.resources.foldl (fun q resource =>
      report.events.foldl (fun q event =>
        q ++ [eventStmt principal resource event]) q) q) query

/-- Request body of the `report` handler. -/
structure Request where
  resources : List ResourceTreeNode
  event_reports : List EventsReport

/-- The statement sequence compiled by the `report` handler
(src/src/report.rs): BEGIN, resource-tree upserts (each root starting from
a fresh empty prefix), event upserts, COMMIT. -/
def reportStatements (req : Request) : List Stmt :=
  let q := req.resources.foldl
    (fun q node => (upsertResourceTreeNode q [] node).1) [Stmt.begin]
  let q := req.event_reports.foldl upsertEvents q
  q ++ [Stmt.commit]

/-! ### A pure characterisation of the compiled statement list

`nodeStmts pfx node` is the flat statement list `upsert_resource_tree_node`
appends for `node` when invoked with prefix `pfx`; the master lemma
`upsertResourceTreeNode_eq` (below, with the theorems) proves the
state-passing compiler equal to it and proves that the caller's prefix is
restored after every call. -/

mutual

/-- Statements appended for one node: the resource upsert, the optional
attributes merge, the children's statements (with the node's effective id
as their prefix), and finally the containment edge whose `in` side is the
prefix after the pop (empty for a globally-unique node or a root). -/
def nodeStmts (pfx : List ResourceId) : ResourceTreeNode → List Stmt
  | .mk id gu fsa lsa attributes contains =>
    let isGU : Bool := isGloballyUnique gu
    let base := (if isGU then [] else pfx) ++ [id]
    let inn : List ResourceId := if isGU then [] else pfx
    Stmt.insertStmt "resource" false
        [("id", Val.arr base), ("first_seen_at", Val.time fsa),
          ("last_seen_at", Val.time lsa)]
        [("last_seen_at", Val.time lsa)]
      :: ((match attributes with
          | some a => if a.isEmpty then []
              else [Stmt.updateMerge "resource" base [("attributes", a)]]
          | none => [])
        ++ (match contains with
            | some children => childrenStmts base children
            | none => [])
        ++ [Stmt.insertStmt "contains" true
            [("in", Val.thing "resource" inn), ("out", Val.thing "resource" base),
              ("first_seen_at", Val.time fsa), ("last_seen_at", Val.time lsa)]
            [("last_seen_at", Val.time lsa)]])

/-- Statements appended for a list of children sharing prefix `pfx`. -/
def childrenStmts (pfx : List ResourceId) : List ResourceTreeNode → List Stmt
  | [] => []
  | c :: cs => nodeStmts pfx c ++ childrenStmts pfx cs

end

/-! ### Observation functions over compiled statement lists -/

/-- The storage key (`id` value) of a resource-record upsert statement. -/
def resourceKeyOf : Stmt → Option (List ResourceId)
  | .insertStmt "resource" false (("id", Val.arr ids) :: _) _ => some ids
  | _ => none

/-- Keys of the resource-record upserts of a statement list, in order. -/
def resourceKeys (stmts : List Stmt) : List (List ResourceId) :=
  stmts.filterMap resourceKeyOf

/-- The `(in, out, first_seen_at, last_seen_at)` content of a
containment-edge upsert statement. -/
def containsEdgeOf : Stmt → Option (List ResourceId × List ResourceId × Nat × Nat)
  | .insertStmt "contains" true
      [(_, Val.thing _ i), (_, Val.thing _ o), (_, Val.time f), (_, Val.time l)]
      _ => some (i, o, f, l)
  | _ => none

/-- Containment edges of a statement list, in order. -/
def containsEdges (stmts : List Stmt) :
    List (List ResourceId × List ResourceId × Nat × Nat) :=
  stmts.filterMap containsEdgeOf

/-- Containment edges, `(in, out)` sides only. -/
def containsEdgePairs (stmts : List Stmt) :
    List (List ResourceId × List ResourceId) :=
  (containsEdges stmts).map fun e => (e.1, e.2.1)

/-- The `(key, attribute map)` of an attributes merge-update statement. -/
def mergeStmtOf : Stmt → Option (List ResourceId × List (String × String)) :=
  fun s => match s with
  | .updateMerge "resource" key [("attributes", a)] => some (key, a)
  | _ => none

/-- Attribute merge-update statements of a statement list, in order. -/
def mergeStmts (stmts : List Stmt) :
    List (List ResourceId × List (String × String)) :=
  stmts.filterMap mergeStmtOf

/-- The field names assigned by the on-conflict update clause of an
insert statement (`none` for non-insert statements). -/
def updateFieldsOf : Stmt → Option (List String)
  | .insertStmt _ _ _ upd => some (upd.map Prod.fst)
  | _ => none

/-! ### Spec-side identity and containment functions (claim language) -/

mutual

/-- The claims' effective-ResourceId function: a node's effective id is
the path of segments from the tree root to the node, except that a
`globally_unique` node restarts at its own single segment and its
descendants continue prefixing from there.  Returned in the emission
(depth-first preorder) order of the resource-record upserts. -/
def specEffectiveIds (pfx : List ResourceId) : ResourceTreeNode → List (List ResourceId)
  | .mk id gu _ _ _ contains =>
    let base := if isGloballyUnique gu then [id] else pfx ++ [id]
    base :: (match contains with
      | some cs => specEffectiveIdsList base cs
      | none => [])

/-- List version of `specEffectiveIds`. -/
def specEffectiveIdsList (pfx : List ResourceId) : List ResourceTreeNode → List (List ResourceId)
  | [] => []
  | c :: cs => specEffectiveIds pfx c ++ specEffectiveIdsList pfx cs

end

mutual

/-- Pure root-to-node paths, with no globally-unique override (the claim's
description of effective ids for trees without a `globally_unique`
node). -/
def rootPaths (pfx : List ResourceId) : ResourceTreeNode → List (List ResourceId)
  | .mk id _ _ _ _ contains =>
    (pfx ++ [id]) :: (match contains with
      | some cs => rootPathsList (pfx ++ [id]) cs
      | none => [])

/-- List version of `rootPaths`. -/
def rootPathsList (pfx : List ResourceId) : List ResourceTreeNode → List (List ResourceId)
  | [] => []
  | c :: cs => rootPaths pfx c ++ rootPathsList pfx cs

end

mutual

/-- `true` iff no node of the tree has `globally_unique = Some(true)`. -/
def noGu : ResourceTreeNode → Bool
  | .mk _ gu _ _ _ contains =>
    !isGloballyUnique gu && (match contains with
      | some cs => noGuList cs
      | none => true)

/-- List version of `noGu`. -/
def noGuList : List ResourceTreeNode → Bool
  | [] => true
  | c :: cs => noGu c && noGuList cs

end

mutual

/-- The `(in, out)` sides of the containment edges the compiler emits, in
emission order (children first, then the node's own edge): the `out` side
is the node's effective id; the `in` side is the prefix the node's segment
was pushed onto (the structural parent's effective id for an ordinary
node, the empty id for a root or a globally-unique node). -/
def specContainsEdgePairs (pfx : List ResourceId) :
    ResourceTreeNode → List (List ResourceId × List ResourceId)
  | .mk id gu _ _ _ contains =>
    let inn : List ResourceId := if isGloballyUnique gu then [] else pfx
    let base := inn ++ [id]
    (match contains with
      | some cs => specContainsEdgePairsList base cs
      | none => []) ++ [(inn, base)]

/-- List version of `specContainsEdgePairs`. -/
def specContainsEdgePairsList (pfx : List ResourceId) :
    List ResourceTreeNode → List (List ResourceId × List ResourceId)
  | [] => []
  | c :: cs => specContainsEdgePairs pfx c ++ specContainsEdgePairsList pfx cs

end

mutual

/-- Full containment edges with the node's own timestamps, one per node:
`(in, out, first_seen_at, last_seen_at)` in emission order. -/
def specContainsEdgesT (pfx : List ResourceId) :
    ResourceTreeNode → List (List ResourceId × List ResourceId × Nat × Nat)
  | .mk id gu fsa lsa _ contains =>
    let inn : List ResourceId := if isGloballyUnique gu then [] else pfx
    let base := inn ++ [id]
    (match contains with
      | some cs => specContainsEdgesTList base cs
      | none => []) ++ [(inn, base, fsa, lsa)]

/-- List version of `specContainsEdgesT`. -/
def specContainsEdgesTList (pfx : List ResourceId) :
    List ResourceTreeNode → List (List ResourceId × List ResourceId × Nat × Nat)
  | [] => []
  | c :: cs => specContainsEdgesT pfx c ++ specContainsEdgesTList pfx cs

end

mutual

/-- Number of nodes of a tree. -/
def countNodes : ResourceTreeNode → Nat
  | .mk _ _ _ _ _ contains =>
    1 + (match contains with
      | some cs => countNodesList cs
      | none => 0)

/-- List version of `countNodes`. -/
def countNodesList : List ResourceTreeNode → Nat
  | [] => 0
  | c :: cs => countNodes c + countNodesList cs

end

mutual

/-- The claims' attribute-merge listing: one `(effective id, attributes)`
entry per node whose submitted `attributes` map is present and non-empty,
in emission order (a node's merge precedes its children's). -/
def specMerges (pfx : List ResourceId) :
    ResourceTreeNode → List (List ResourceId × List (String × String))
  | .mk id gu _ _ attributes contains =>
    let base := if isGloballyUnique gu then [id] else pfx ++ [id]
    (match attributes with
      | some a => if a.isEmpty then [] else [(base, a)]
      | none => []) ++
    (match contains with
      | some cs => specMergesList base cs
      | none => [])

/-- List version of `specMerges`. -/
def specMergesList (pfx : List ResourceId) :
    List ResourceTreeNode → List (List ResourceId × List (String × String))
  | [] => []
  | c :: cs => specMerges pfx c ++ specMergesList pfx cs

end

/-- `true` iff an insert statement's on-conflict update clause assigns the
single field `last_seen_at` (non-insert statements have no such clause). -/
def updatesOnlyLastSeen (s : Stmt) : Bool :=
  match s with
  | .insertStmt _ _ _ upd => upd.map Prod.fst == ["last_seen_at"]
  | _ => true

/-- The full (principal × resource × event) cross product of an
`EventsReport`, in the claim's nesting order: principals outermost, then
resources, then events, each list in insertion order. -/
def eventCross (report : EventsReport) : List Stmt :=
  report.principals.flatMap fun principal =>
    report.resources.flatMap fun resource =>
      report.events.map fun event => eventStmt principal resource event

/-! ### Concrete instances used by witnesses and counterexamples -/

def idA : ResourceId := ⟨"Host", "A"⟩

def idB : ResourceId := ⟨"Service", "B"⟩

def idC : ResourceId := ⟨"Secret", "C"⟩

/-- The tree `A -> B(globally_unique) -> C` of the spec's end-to-end
scenario. -/
def tABC : ResourceTreeNode :=
  .mk idA none 1 2 none
    (some [.mk idB (some true) 3 4 none
      (some [.mk idC none 5 6 none none])])

/-- The tree `A -> B -> C` with no globally-unique node. -/
def tNoGu : ResourceTreeNode :=
  .mk idA none 1 2 none
    (some [.mk idB none 3 4 none
      (some [.mk idC none 5 6 none none])])

/-- A single root node. -/
def tRoot : ResourceTreeNode := .mk idA none 1 2 none none

/-- A root with a non-empty attribute map and a child with none. -/
def tAttrs : ResourceTreeNode :=
  .mk idA none 1 2 (some [("env", "prod")])
    (some [.mk idB none 3 4 (some []) none])

/-- A small event report: 2 principals, 1 resource, 2 events. -/
def repC : EventsReport :=
  { principals := [[idA], [idB]]
    resources := [[idA, idC]]
    events := [⟨"reads", 7, 8⟩, ⟨"writes", 9, 10⟩] }

/-! ### Transaction executor (src/src/db.rs) -/

/-- A per-statement error as classified by `check_first_real_error`: the
generic `QueryNotExecuted` status, or a concrete error. -/
inductive DbError where
  | queryNotExecuted
  | other (msg : String)
deriving DecidableEq

/-- `true` for errors other than the generic not-executed status (the
`!matches!(result, QueryNotExecuted)` filter of db.rs). -/
def isRealError (e : DbError) : Bool :=
  match e with
  | DbError.queryNotExecuted => false
  | _ => true

/-- Rust's `Iterator::min_by_key` over `(query index, error)` pairs:
returns the first of equally minimal keys (keys are distinct here, coming
from a map). -/
def minByKey (l : List (Nat × DbError)) : Option (Nat × DbError) :=
  l.foldl (fun acc x =>
    match acc with
    | none => some x
    | some y => if x.1 < y.1 then some x else some y) none

/-- `check_first_real_error` from src/src/db.rs: empty error map means
success; otherwise surface the error of the minimal-index statement that
failed for a concrete reason; if only `QueryNotExecuted` errors exist,
warn and surface `QueryNotExecuted` as an error. -/
def checkFirstRealError (errors : List (Nat × DbError)) : Except DbError Unit :=
  if errors.isEmpty then Except.ok ()
  else
    match minByKey (errors.filter fun e => isRealError e.2) with
    | some ke => Except.error ke.2
    | none => Except.error DbError.queryNotExecuted

/-- A concrete error map: statement 0 not executed, statements 2 and 1
with concrete errors. -/
def errsC6 : List (Nat × DbError) :=
  [(0, DbError.queryNotExecuted), (2, DbError.other "boom"),
    (1, DbError.other "bad value")]

/-! ### Query response shape (src/src/query.rs) -/

/-- `QueryResponse` from src/src/query.rs.  The element types (`Resource`,
`Event`, `GlobalContainer`) live in modules not present under src/ and are
opaque strings here; the claim concerns only field presence.  Serde
attributes: `global_containers` has `skip_serializing_if = "Vec::is_empty"`,
`events` is an `Option<Vec<Event>>` with
`skip_serializing_if = "Option::is_none"`. -/
structure QueryResponse where
  resources : List String
  global_containers : List String
  events : Option (List String)
deriving DecidableEq

/-- The field names serde writes for a `QueryResponse`, in declaration
order, honouring each field's `skip_serializing_if` attribute. -/
def serializedFields (r : QueryResponse) : List String :=
  ["resources"]
    ++ (if r.global_containers.isEmpty then [] else ["global_containers"])
    ++ (match r.events with
        | none => []
        | some _ => ["events"])

/-! ### Report credential codec (src/src/report_key.rs)

Strings are `List Char`; byte strings are `List Nat` with every byte below
256.  `String::as_bytes` is UTF-8; every string this codec formats
(`"key_id=.."`, `"account_id=.."`, the endpoint) is handled at byte level,
ASCII content mapping one char to one byte.  The AES-128-GCM cipher is an
external crate and is embedded as a parameter together with its documented
contract (`AEAD.Sound`). -/

/-- An authenticated-encryption scheme: `encrypt key nonce aad msg` and
`decrypt key nonce aad ciphertext`. -/
structure AEAD where
  encrypt : List Nat → List Nat → List Nat → List Nat → List Nat
  decrypt : List Nat → List Nat → List Nat → List Nat → Option (List Nat)

/-- The aes-gcm crate contract used by report_key.rs: decryption inverts
encryption under the same key, nonce and associated data; the ciphertext
is the message plus the 16-byte tag; ciphertexts are byte strings. -/
structure AEAD.Sound (A : AEAD) : Prop where
  decrypt_encrypt : ∀ key nonce aad msg,
    A.decrypt key nonce aad (A.encrypt key nonce aad msg) = some msg
  length_encrypt : ∀ key nonce aad msg,
    (A.encrypt key nonce aad msg).length = msg.length + 16
  bytes_encrypt : ∀ key nonce aad msg, (∀ b ∈ msg, b < 256) →
    ∀ b ∈ A.encrypt key nonce aad msg, b < 256

/-- A trivially sound AEAD used to instantiate witnesses: the tag is 16
zero bytes and decryption strips it. -/
def toyAEAD : AEAD where
  encrypt := fun _ _ _ msg => msg ++ List.replicate 16 0
  decrypt := fun _ _ _ ct =>
    if 16 ≤ ct.length then some (ct.take (ct.length - 16)) else none

/-- UTF-8 bytes of an ASCII string (each char is one byte). -/
def utf8 (s : List Char) : List Nat := s.map Char.toNat

/-- Chars of a byte string (inverse of `utf8` on ASCII content). -/
def bytesChars (bs : List Nat) : List Char := bs.map Char.ofNat

/-- The decimal digit character for `d < 10`. -/
def digitChar (d : Nat) : Char := Char.ofNat (48 + d)

/-- `true` for the characters `'0'..'9'`. -/
def isDigit (c : Char) : Bool := 48 ≤ c.toNat && c.toNat ≤ 57

/-- Numeric value of a digit character. -/
def digitVal (c : Char) : Nat := c.toNat - 48

/-- Decimal digits of `n`, most significant first, by fuel-bounded
division (the fuel `n + 1` always suffices). -/
def digitsGo (fuel n : Nat) : List Char :=
  match fuel with
  | 0 => []
  | fuel + 1 => if n = 0 then [] else digitsGo fuel (n / 10) ++ [digitChar (n % 10)]

/-- Rust's `format!("{}", n)` for an unsigned integer: its decimal
digits. -/
def natDigits (n : Nat) : List Char :=
  if n = 0 then ['0'] else digitsGo (n + 1) n

/-- Rust's `str::parse::<u32>`: an optional leading `'+'`, then one or
more decimal digits, failing on overflow past `u32::MAX`. -/
def parseU32 (s : List Char) : Option Nat :=
  let s2 := match s with
    | [] => s
    | c :: rest => if c = '+' then rest else s
  if s2.isEmpty then none
  else if s2.all isDigit then
    if s2.foldl (fun a c => a * 10 + digitVal c) 0 ≤ 4294967295 then
      some (s2.foldl (fun a c => a * 10 + digitVal c) 0)
    else none
  else none

/-- Rust's `str::strip_prefix` / slice pattern matching of a leading
pattern: `some` of the remainder when the pattern leads the list. -/
def stripPre {α : Type} [DecidableEq α] : List α → List α → Option (List α)
  | [], s => some s
  | _ :: _, [] => none
  | p :: ps, c :: cs => if c = p then stripPre ps cs else none

/-- Rust's `splitn(2, sep)` when the separator occurs: the part before the
first separator and everything after it; `none` when the separator is
absent (the codec bails in that case). -/
def splitFirst (sep : Char) : List Char → Option (List Char × List Char)
  | [] => none
  | c :: cs =>
    if c = sep then some ([], cs)
    else (splitFirst sep cs).map fun p => (c :: p.1, p.2)

/-- The standard base64 alphabet. -/
def b64Chars : List Char :=
  ['A', 'B', 'C', 'D', 'E', 'F', 'G', 'H', 'I', 'J', 'K', 'L', 'M',
    'N', 'O', 'P', 'Q', 'R', 'S', 'T', 'U', 'V', 'W', 'X', 'Y', 'Z',
    'a', 'b', 'c', 'd', 'e', 'f', 'g', 'h', 'i', 'j', 'k', 'l', 'm',
    'n', 'o', 'p', 'q', 'r', 's', 't', 'u', 'v', 'w', 'x', 'y', 'z',
    '0', '1', '2', '3', '4', '5', '6', '7', '8', '9', '+', '/']

/-- Alphabet character of a sextet. -/
def sextetChar (n : Nat) : Char := b64Chars.getD n 'A'

/-- Index of a character in a list. -/
def idxOf (c : Char) : List Char → Option Nat
  | [] => none
  | x :: xs => if x = c then some 0 else (idxOf c xs).map fun n => n + 1

/-- Sextet of an alphabet character. -/
def charSextet (c : Char) : Option Nat := idxOf c b64Chars

/-- `BASE64_STANDARD.encode` of the base64 crate: 3-byte groups to 4
alphabet characters, with canonical `=` padding. -/
def encodeB64 : List Nat → List Char
  | [] => []
  | [a] => [sextetChar (a / 4), sextetChar (a % 4 * 16), '=', '=']
  | [a, b] =>
    [sextetChar (a / 4), sextetChar (a % 4 * 16 + b / 16), sextetChar (b % 16 * 4), '=']
  | a :: b :: c :: rest =>
    sextetChar (a / 4) :: sextetChar (a % 4 * 16 + b / 16) ::
      sextetChar (b % 16 * 4 + c / 64) :: sextetChar (c % 64) :: encodeB64 rest

/-- `BASE64_STANDARD.decode` of the base64 crate: 4-character groups to 3
bytes, requiring canonical padding and zero trailing bits, rejecting
characters outside the alphabet and lengths that are not multiples of
4. -/
def decodeB64 : List Char → Option (List Nat)
  | [] => some []
  | c1 :: c2 :: c3 :: c4 :: rest =>
    match charSextet c1, charSextet c2 with
    | some s1, some s2 =>
      if c3 = '=' then
        if c4 = '=' ∧ rest = [] ∧ s2 % 16 = 0 then some [s1 * 4 + s2 / 16]
        else none
      else
        match charSextet c3 with
        | some s3 =>
          if c4 = '=' then
            if rest = [] ∧ s3 % 4 = 0 then
              some [s1 * 4 + s2 / 16, s2 % 16 * 16 + s3 / 4]
            else none
          else
            match charSextet c4 with
            | some s4 =>
              (decodeB64 rest).map fun bs =>
                (s1 * 4 + s2 / 16) :: (s2 % 16 * 16 + s3 / 4) :: (s3 % 4 * 64 + s4) :: bs
            | none => none
        | none => none
    | _, _ => none
  | _ => none

/-- The fixed credential prefix `"archodex_report_key_"`. -/
def keyTag : List Char := "archodex_report_key_".toList

/-- The plaintext prefix `"account_id="` as bytes. -/
def acctTag : List Nat := utf8 "account_id=".toList

/-- The associated data `"key_id=<kid>;endpoint=<endpoint>"` as bytes. -/
def aadBytes (kid : Nat) (endpoint : List Nat) : List Nat :=
  utf8 ("key_id=".toList ++ natDigits kid ++ ";endpoint=".toList) ++ endpoint

/-- The plaintext `"account_id=<account_id>"` as bytes. -/
def accountPlaintext (accountId : List Char) : List Nat :=
  utf8 ("account_id=".toList ++ accountId)

/-- `ReportKey::generate_value` from src/src/report_key.rs: encrypt
`"account_id=<account_id>"` under `(nonce, aad)`, serialize 1-byte
endpoint length (`len as u8`), endpoint bytes, 1-byte nonce length, nonce,
ciphertext; base64; prefix with the tag and the decimal key id. -/
def generateValue (A : AEAD) (key nonce endpoint : List Nat)
    (accountId : List Char) (kid : Nat) : List Char :=
  let ct := A.encrypt key nonce (aadBytes kid endpoint) (accountPlaintext accountId)
  let value := [endpoint.length % 256] ++ endpoint ++ [nonce.length % 256] ++ nonce ++ ct
  keyTag ++ natDigits kid ++ '_' :: encodeB64 value

/-- Byte at index `i` of a byte string (the Rust `value[i]` indexing; all
uses are guarded by length checks). -/
def byteAt : List Nat → Nat → Nat
  | [], _ => 0
  | b :: _, 0 => b
  | _ :: bs, i + 1 => byteAt bs i

/-- The validator's key-id range check `key_id >= 100000 && key_id <= 999999`. -/
def kidRangeOk (kid : Nat) : Bool := 100000 ≤ kid && kid ≤ 999999

/-- `ReportKey::validate_value` from src/src/report_key.rs, failing closed
at each step.  Notes on the embedding: the endpoint UTF-8 check plus
string comparison against `Env::endpoint()` is byte equality (UTF-8 is
injective and the configured endpoint is valid UTF-8); the
`Nonce::<Aes128Gcm>::from_slice` call panics unless the slice is exactly
12 bytes, modelled as a failure; the final `from_utf8` plus
`strip_prefix("account_id=")` plus `parse::<u32>` chain is evaluated at
byte level, which agrees with the Rust chain because any byte string
passing the prefix-and-parse checks is ASCII, hence valid UTF-8. -/
def validateValue (A : AEAD) (key endpoint : List Nat) (s : List Char) :
    Option (List Char × Nat) :=
  match stripPre keyTag s with
  | none => none
  | some rest =>
  match splitFirst '_' rest with
  | none => none
  | some kv =>
  match parseU32 kv.1 with
  | none => none
  | some kid =>
  if kidRangeOk kid then
    match decodeB64 kv.2 with
    | none => none
    | some value =>
      if value.length = 0 then none
      else
        let epLen := byteAt value 0
        if 1 + epLen < value.length then
          let ep := (value.drop 1).take epLen
          if ep = endpoint then
            if 1 + epLen + 1 < value.length then
              let nLen := byteAt value (1 + epLen)
              if 1 + epLen + nLen + 1 < value.length then
                let nonce := (value.drop (1 + epLen + 1)).take nLen
                if nLen = 12 then
                  let ct := value.drop (1 + epLen + 1 + nLen)
                  match A.decrypt key nonce (aadBytes kid ep) ct with
                  | none => none
                  | some pt =>
                  match stripPre acctTag pt with
                  | none => none
                  | some acctBytes =>
                  match parseU32 (bytesChars acctBytes) with
                  | none => none
                  | some _ => some (bytesChars acctBytes, kid)
                else none
              else none
            else none
          else none
        else none
  else none

/-- `gen_range(lo..=hi)` of the rand crate, modelled over an abstract
seed: the contract is that the sample lies in the inclusive range. -/
def genRange (lo hi seed : Nat) : Nat := lo + seed % (hi - lo + 1)

/-- `ReportKey` from src/src/report_key.rs (`created_by`/`revoked_by`
`User` records are opaque strings here). -/
structure ReportKey where
  id : Nat
  description : Option String
  created_at : Option Nat
  created_by : String
  revoked_at : Option Nat
  revoked_by : Option String
deriving DecidableEq

/-- `ReportKey::new`: a fresh key with a random six-digit id. -/
def ReportKey.new (seed : Nat) (description : Option String)
    (created_by : String) : ReportKey :=
  { id := genRange 100000 999999 seed
    description := description
    created_at := none
    created_by := created_by
    revoked_at := none
    revoked_by := none }

/-- A concrete endpoint byte string, `"ep1"`. -/
def epOne : List Nat := utf8 "ep1".toList

/-- A concrete endpoint byte string, `"ep2"`. -/
def epTwo : List Nat := utf8 "ep2".toList

/-! ## Theorems -/

mutual

/-- Master lemma: the state-passing compiler appends exactly `nodeStmts`
and restores the caller's prefix. -/
theorem upsertResourceTreeNode_eq :
    ∀ (node : ResourceTreeNode) (q : List Stmt) (pfx : List ResourceId),
      upsertResourceTreeNode q pfx node = (q ++ nodeStmts pfx node, pfx)
  | .mk id gu fsa lsa attributes contains, q, pfx => by
    cases contains with
    | none =>
      cases attributes with
      | none =>
        cases h : isGloballyUnique gu <;>
          simp [upsertResourceTreeNode, nodeStmts, h, List.dropLast_concat]
      | some a =>
        by_cases ha : a.isEmpty <;>
          cases h : isGloballyUnique gu <;>
            simp [upsertResourceTreeNode, nodeStmts, h, ha, List.dropLast_concat]
    | some children =>
      have hc := upsertChildren_eq children
      cases attributes with
      | none =>
        cases h : isGloballyUnique gu <;>
          simp [upsertResourceTreeNode, nodeStmts, h, hc, List.dropLast_concat]
      | some a =>
        by_cases ha : a.isEmpty <;>
          cases h : isGloballyUnique gu <;>
            simp [upsertResourceTreeNode, nodeStmts, h, ha, hc,
              List.dropLast_concat]

/-- Master lemma for the children loop. -/
theorem upsertChildren_eq :
    ∀ (cs : List ResourceTreeNode) (q : List Stmt) (pfx : List ResourceId),
      upsertChildren q pfx cs = (q ++ childrenStmts pfx cs, pfx)
  | [], q, pfx => by simp [upsertChildren, childrenStmts]
  | c :: cs, q, pfx => by
    simp only [upsertChildren, childrenStmts]
    rw [upsertResourceTreeNode_eq c, upsertChildren_eq cs]
    simp

end

/-- `resourceKeys` distributes over append. -/
theorem resourceKeys_append (a b : List Stmt) :
    resourceKeys (a ++ b) = resourceKeys a ++ resourceKeys b := by
  simp [resourceKeys]

/-- `containsEdgePairs` distributes over append. -/
theorem containsEdgePairs_append (a b : List Stmt) :
    containsEdgePairs (a ++ b) = containsEdgePairs a ++ containsEdgePairs b := by
  simp [containsEdgePairs, containsEdges]

/-- `containsEdges` distributes over append. -/
theorem containsEdges_append (a b : List Stmt) :
    containsEdges (a ++ b) = containsEdges a ++ containsEdges b := by
  simp [containsEdges]

/-- `mergeStmts` distributes over append. -/
theorem mergeStmts_append (a b : List Stmt) :
    mergeStmts (a ++ b) = mergeStmts a ++ mergeStmts b := by
  simp [mergeStmts]

mutual

/-- The resource-record keys of a node's compiled statements are exactly
the claims' effective ids, in depth-first preorder. -/
theorem resourceKeys_nodeStmts :
    ∀ (t : ResourceTreeNode) (pfx : List ResourceId),
      resourceKeys (nodeStmts pfx t) = specEffectiveIds pfx t
  | .mk id gu fsa lsa attributes contains, pfx => by
    cases contains with
    | none =>
      cases attributes with
      | none => cases h : isGloballyUnique gu <;>
          simp [nodeStmts, specEffectiveIds, resourceKeys, resourceKeyOf, h]
      | some a => by_cases ha : a.isEmpty <;>
          cases h : isGloballyUnique gu <;>
            simp [nodeStmts, specEffectiveIds, resourceKeys, resourceKeyOf, h, ha]
    | some cs =>
      have hc : ∀ (p : List ResourceId),
          List.filterMap resourceKeyOf (childrenStmts p cs) = specEffectiveIdsList p cs :=
        fun p => resourceKeys_childrenStmts cs p
      cases attributes with
      | none => cases h : isGloballyUnique gu <;>
          simp [nodeStmts, specEffectiveIds, resourceKeys, resourceKeyOf, h, hc]
      | some a => by_cases ha : a.isEmpty <;>
          cases h : isGloballyUnique gu <;>
            simp [nodeStmts, specEffectiveIds, resourceKeys, resourceKeyOf, h, ha, hc]
  termination_by t => sizeOf t

/-- List version of `resourceKeys_nodeStmts`. -/
theorem resourceKeys_childrenStmts :
    ∀ (cs : List ResourceTreeNode) (pfx : List ResourceId),
      resourceKeys (childrenStmts pfx cs) = specEffectiveIdsList pfx cs
  | [], _ => by simp [childrenStmts, specEffectiveIdsList, resourceKeys]
  | c :: cs, pfx => by
    rw [childrenStmts, specEffectiveIdsList, resourceKeys_append,
      resourceKeys_nodeStmts c pfx, resourceKeys_childrenStmts cs pfx]
  termination_by cs => sizeOf cs

end

mutual

/-- On trees without a globally-unique node, the claims' effective ids are
the plain root-to-node paths. -/
theorem specEffectiveIds_noGu :
    ∀ (t : ResourceTreeNode) (pfx : List ResourceId),
      noGu t = true → specEffectiveIds pfx t = rootPaths pfx t
  | .mk id gu fsa lsa attributes contains, pfx => by
    intro h
    cases contains with
    | none => simp [noGu] at h; simp [specEffectiveIds, rootPaths, h]
    | some cs =>
      simp [noGu] at h
      have hc := specEffectiveIdsList_noGu cs (pfx ++ [id]) h.2
      simp [specEffectiveIds, rootPaths, h.1, hc]
  termination_by t => sizeOf t

/-- List version of `specEffectiveIds_noGu`. -/
theorem specEffectiveIdsList_noGu :
    ∀ (cs : List ResourceTreeNode) (pfx : List ResourceId),
      noGuList cs = true → specEffectiveIdsList pfx cs = rootPathsList pfx cs
  | [], _ => by intro _; simp [specEffectiveIdsList, rootPathsList]
  | c :: cs, pfx => by
    intro h
    simp [noGuList] at h
    rw [specEffectiveIdsList, rootPathsList, specEffectiveIds_noGu c pfx h.1,
      specEffectiveIdsList_noGu cs pfx h.2]
  termination_by cs => sizeOf cs

end

mutual

/-- The spec `(in, out)` pairs are the projection of the full spec
containment edges. -/
theorem specContainsEdgePairs_eq_map :
    ∀ (t : ResourceTreeNode) (pfx : List ResourceId),
      (specContainsEdgesT pfx t).map (fun e => (e.1, e.2.1))
        = specContainsEdgePairs pfx t
  | .mk id gu fsa lsa attributes contains, pfx => by
    cases contains with
    | none => simp [specContainsEdgesT, specContainsEdgePairs]
    | some cs =>
      have hc := specContainsEdgePairsList_eq_map cs
      simp [specContainsEdgesT, specContainsEdgePairs, hc]
  termination_by t => sizeOf t

/-- List version of `specContainsEdgePairs_eq_map`. -/
theorem specContainsEdgePairsList_eq_map :
    ∀ (cs : List ResourceTreeNode) (pfx : List ResourceId),
      (specContainsEdgesTList pfx cs).map (fun e => (e.1, e.2.1))
        = specContainsEdgePairsList pfx cs
  | [], _ => by simp [specContainsEdgesTList, specContainsEdgePairsList]
  | c :: cs, pfx => by
    simp [specContainsEdgesTList, specContainsEdgePairsList,
      specContainsEdgePairs_eq_map c pfx, specContainsEdgePairsList_eq_map cs pfx]
  termination_by cs => sizeOf cs

end

mutual

/-- The full containment edges of a node's compiled statements are exactly
`specContainsEdgesT`. -/
theorem containsEdges_nodeStmts :
    ∀ (t : ResourceTreeNode) (pfx : List ResourceId),
      containsEdges (nodeStmts pfx t) = specContainsEdgesT pfx t
  | .mk id gu fsa lsa attributes contains, pfx => by
    cases contains with
    | none =>
      cases attributes with
      | none => cases h : isGloballyUnique gu <;>
          simp [nodeStmts, specContainsEdgesT, containsEdges, containsEdgeOf, h]
      | some a => by_cases ha : a.isEmpty <;>
          cases h : isGloballyUnique gu <;>
            simp [nodeStmts, specContainsEdgesT, containsEdges, containsEdgeOf, h, ha]
    | some cs =>
      have hc : ∀ (p : List ResourceId),
          List.filterMap containsEdgeOf (childrenStmts p cs)
            = specContainsEdgesTList p cs :=
        fun p => containsEdges_childrenStmts cs p
      cases attributes with
      | none => cases h : isGloballyUnique gu <;>
          simp [nodeStmts, specContainsEdgesT, containsEdges, containsEdgeOf, h, hc]
      | some a => by_cases ha : a.isEmpty <;>
          cases h : isGloballyUnique gu <;>
            simp [nodeStmts, specContainsEdgesT, containsEdges, containsEdgeOf, h, ha, hc]
  termination_by t => sizeOf t

/-- List version of `containsEdges_nodeStmts`. -/
theorem containsEdges_childrenStmts :
    ∀ (cs : List ResourceTreeNode) (pfx : List ResourceId),
      containsEdges (childrenStmts pfx cs) = specContainsEdgesTList pfx cs
  | [], _ => by simp [childrenStmts, specContainsEdgesTList, containsEdges]
  | c :: cs, pfx => by
    rw [childrenStmts, specContainsEdgesTList, containsEdges_append,
      containsEdges_nodeStmts c pfx, containsEdges_childrenStmts cs pfx]
  termination_by cs => sizeOf cs

end

mutual

/-- There is exactly one spec containment edge per node. -/
theorem specContainsEdgesT_length :
    ∀ (t : ResourceTreeNode) (pfx : List ResourceId),
      (specContainsEdgesT pfx t).length = countNodes t
  | .mk id gu fsa lsa attributes contains, pfx => by
    cases contains with
    | none => simp [specContainsEdgesT, countNodes]
    | some cs =>
      have hc := specContainsEdgesTList_length cs
      simp [specContainsEdgesT, countNodes, hc, Nat.add_comm]
  termination_by t => sizeOf t

/-- List version of `specContainsEdgesT_length`. -/
theorem specContainsEdgesTList_length :
    ∀ (cs : List ResourceTreeNode) (pfx : List ResourceId),
      (specContainsEdgesTList pfx cs).length = countNodesList cs
  | [], _ => by simp [specContainsEdgesTList, countNodesList]
  | c :: cs, pfx => by
    simp [specContainsEdgesTList, countNodesList,
      specContainsEdgesT_length c pfx, specContainsEdgesTList_length cs pfx]
  termination_by cs => sizeOf cs

end

mutual

/-- The attribute merge statements of a node's compiled statements are
exactly `specMerges`. -/
theorem mergeStmts_nodeStmts :
    ∀ (t : ResourceTreeNode) (pfx : List ResourceId),
      mergeStmts (nodeStmts pfx t) = specMerges pfx t
  | .mk id gu fsa lsa attributes contains, pfx => by
    cases contains with
    | none =>
      cases attributes with
      | none => cases h : isGloballyUnique gu <;>
          simp [nodeStmts, specMerges, mergeStmts, mergeStmtOf, h]
      | some a => by_cases ha : a.isEmpty <;>
          cases h : isGloballyUnique gu <;>
            simp [nodeStmts, specMerges, mergeStmts, mergeStmtOf, h, ha]
    | some cs =>
      have hc : ∀ (p : List ResourceId),
          List.filterMap mergeStmtOf (childrenStmts p cs) = specMergesList p cs :=
        fun p => mergeStmts_childrenStmts cs p
      cases attributes with
      | none => cases h : isGloballyUnique gu <;>
          simp [nodeStmts, specMerges, mergeStmts, mergeStmtOf, h, hc]
      | some a => by_cases ha : a.isEmpty <;>
          cases h : isGloballyUnique gu <;>
            simp [nodeStmts, specMerges, mergeStmts, mergeStmtOf, h, ha, hc]
  termination_by t => sizeOf t

/-- List version of `mergeStmts_nodeStmts`. -/
theorem mergeStmts_childrenStmts :
    ∀ (cs : List ResourceTreeNode) (pfx : List ResourceId),
      mergeStmts (childrenStmts pfx cs) = specMergesList pfx cs
  | [], _ => by simp [childrenStmts, specMergesList, mergeStmts]
  | c :: cs, pfx => by
    rw [childrenStmts, specMergesList, mergeStmts_append,
      mergeStmts_nodeStmts c pfx, mergeStmts_childrenStmts cs pfx]
  termination_by cs => sizeOf cs

end

mutual

/-- Every insert statement a node compiles updates only `last_seen_at` on
conflict. -/
theorem nodeStmts_all_updates :
    ∀ (t : ResourceTreeNode) (pfx : List ResourceId),
      (nodeStmts pfx t).all updatesOnlyLastSeen = true
  | .mk id gu fsa lsa attributes contains, pfx => by
    cases contains with
    | none =>
      cases attributes with
      | none => cases h : isGloballyUnique gu <;>
          simp [nodeStmts, updatesOnlyLastSeen, h]
      | some a => by_cases ha : a.isEmpty <;>
          cases h : isGloballyUnique gu <;>
            simp [nodeStmts, updatesOnlyLastSeen, h, ha]
    | some cs =>
      have hc : ∀ (p : List ResourceId),
          (childrenStmts p cs).all updatesOnlyLastSeen = true :=
        fun p => childrenStmts_all_updates cs p
      cases attributes with
      | none => cases h : isGloballyUnique gu <;>
          simp [nodeStmts, updatesOnlyLastSeen, h, hc]
      | some a => by_cases ha : a.isEmpty <;>
          cases h : isGloballyUnique gu <;>
            simp [nodeStmts, updatesOnlyLastSeen, h, ha, hc]
  termination_by t => sizeOf t

/-- List version of `nodeStmts_all_updates`. -/
theorem childrenStmts_all_updates :
    ∀ (cs : List ResourceTreeNode) (pfx : List ResourceId),
      (childrenStmts pfx cs).all updatesOnlyLastSeen = true
  | [], _ => by simp [childrenStmts]
  | c :: cs, pfx => by
    simp [childrenStmts, nodeStmts_all_updates c pfx,
      childrenStmts_all_updates cs pfx]
  termination_by cs => sizeOf cs

end

/-- Folding list-appends equals appending a flatMap. -/
theorem foldl_append_flatMap {α β : Type} (g : α → List β) :
    ∀ (l : List α) (q : List β),
      l.foldl (fun acc x => acc ++ g x) q = q ++ l.flatMap g
  | [], q => by simp
  | x :: xs, q => by
    simp only [List.foldl_cons, List.flatMap_cons, foldl_append_flatMap g xs]
    simp [List.append_assoc]

/-- flatMap of singletons is map. -/
theorem flatMap_pure {α β : Type} (f : α → β) (l : List α) :
    (l.flatMap fun x => [f x]) = l.map f := by
  induction l with
  | nil => rfl
  | cons x xs ih => simp [ih]

/-- `upsert_events` appends exactly the cross product, in order. -/
theorem upsertEvents_eq (q : List Stmt) (rep : EventsReport) :
    upsertEvents q rep = q ++ eventCross rep := by
  cases rep with
  | mk ps rs es =>
    simp only [upsertEvents, eventCross]
    simp only [foldl_append_flatMap, flatMap_pure]

/-- The cross product has `P * R * E` statements. -/
theorem eventCross_length (rep : EventsReport) :
    (eventCross rep).length =
      rep.principals.length * rep.resources.length * rep.events.length := by
  cases rep with
  | mk ps rs es =>
    simp only [eventCross]
    have h2 : ∀ (p : List ResourceId),
        (rs.flatMap fun r => es.map (eventStmt p r)).length
          = rs.length * es.length := by
      intro p
      induction rs with
      | nil => simp
      | cons r rs ih => simp [ih, Nat.succ_mul, Nat.add_comm]
    induction ps with
    | nil => simp
    | cons p ps ih =>
      simp only [List.flatMap_cons, List.length_append, ih, h2, List.length_cons]
      ring

/-! ## Claim theorems -/

/-- C1 (counterexample): for the submitted tree
`A -> B(globally_unique) -> C` the compiler does not emit a containment
edge `[A] -> contains -> [B]`; the edge upsert for the globally-unique
node `B` carries the empty id — the fresh prefix after the override — as
its `in` side, not the structural parent's effective ResourceId `[A]`. -/
theorem claim_C1_counterexample :
    containsEdgePairs ((upsertResourceTreeNode [] [] tABC).1)
        = [([idB], [idB, idC]), ([], [idB]), ([], [idA])] ∧
      ([idA], [idB]) ∉ containsEdgePairs ((upsertResourceTreeNode [] [] tABC).1) := by
  decide

/-- C1 (amended): for every submitted tree, each emitted containment-edge
upsert has `out` side the node's effective ResourceId and `in` side the
prefix the node's segment was pushed onto: the structural parent's
effective ResourceId for an ordinary node, but the empty ResourceId for a
globally-unique node (and for a root). -/
theorem claim_C1_contains_edge_in_sides (t : ResourceTreeNode) :
    containsEdgePairs ((upsertResourceTreeNode [] [] t).1)
      = specContainsEdgePairs [] t := by
  rw [upsertResourceTreeNode_eq]
  simp only [List.nil_append, containsEdgePairs]
  rw [containsEdges_nodeStmts, specContainsEdgePairs_eq_map]

/-- C3: each node's effective ResourceId — the key of its emitted
resource-record upsert — follows the claims' identity rule
(`specEffectiveIds`): root-to-node path of segments, restarting at a
globally-unique node, whose descendants continue prefixing from it; and on
trees with no globally-unique node this is exactly the root-to-node
path. -/
theorem claim_C3_effective_ids (t : ResourceTreeNode) :
    resourceKeys ((upsertResourceTreeNode [] [] t).1) = specEffectiveIds [] t ∧
    (noGu t = true → specEffectiveIds [] t = rootPaths [] t) := by
  refine ⟨?_, specEffectiveIds_noGu t []⟩
  rw [upsertResourceTreeNode_eq]
  simp only [List.nil_append]
  exact resourceKeys_nodeStmts t []

/-- C3 witness: the no-globally-unique hypothesis discharged on the
concrete tree `A -> B -> C`. -/
theorem claim_C3_effective_ids_witness :
    resourceKeys ((upsertResourceTreeNode [] [] tNoGu).1)
        = specEffectiveIds [] tNoGu ∧
      specEffectiveIds [] tNoGu = rootPaths [] tNoGu :=
  ⟨(claim_C3_effective_ids tNoGu).1,
    (claim_C3_effective_ids tNoGu).2 (by decide)⟩

/-- C4: every emitted insert statement's on-conflict update clause assigns
only `last_seen_at` (for resource records, containment edges and event
edges alike), and the attribute merge-update statements are exactly one
separate statement per node whose submitted attributes map is present and
non-empty. -/
theorem claim_C4_conflict_update_frame (t : ResourceTreeNode) (rep : EventsReport) :
    ((upsertResourceTreeNode [] [] t).1).all updatesOnlyLastSeen = true ∧
    (upsertEvents [] rep).all updatesOnlyLastSeen = true ∧
    mergeStmts ((upsertResourceTreeNode [] [] t).1) = specMerges [] t := by
  refine ⟨?_, ?_, ?_⟩
  · rw [upsertResourceTreeNode_eq]
    simp only [List.nil_append]
    exact nodeStmts_all_updates t []
  · rw [upsertEvents_eq]
    simp only [List.nil_append]
    rw [List.all_eq_true]
    intro s hs
    simp only [eventCross, List.mem_flatMap, List.mem_map] at hs
    obtain ⟨p, _, r, _, e, _, rfl⟩ := hs
    simp [eventStmt, updatesOnlyLastSeen]
  · rw [upsertResourceTreeNode_eq]
    simp only [List.nil_append]
    exact mergeStmts_nodeStmts t []

/-- C5: `upsert_events` appends exactly the P×R×E cross product of event
edge upserts, principals outermost, then resources, then events, in
insertion order with no deduplication, and its statement count is
`P * R * E`. -/
theorem claim_C5_event_cross_product (q : List Stmt) (rep : EventsReport) :
    upsertEvents q rep = q ++ eventCross rep ∧
    (upsertEvents [] rep).length =
      rep.principals.length * rep.resources.length * rep.events.length := by
  refine ⟨upsertEvents_eq q rep, ?_⟩
  rw [upsertEvents_eq]
  simp [eventCross_length]

/-- C8 (counterexample): a single root node does get a containment-edge
upsert — from the empty ResourceId to the root — although it has no
parent, so the compiler emits one edge per node, not one per parent/child
pair. -/
theorem claim_C8_counterexample :
    containsEdges ((upsertResourceTreeNode [] [] tRoot).1) = [([], [idA], 1, 2)] ∧
      containsEdges ((upsertResourceTreeNode [] [] tRoot).1) ≠ [] := by
  decide

/-- C8 (amended): the compiler emits exactly one containment-edge upsert
per node of the tree (for a root node the `in` side is the empty
ResourceId rather than no edge), each carrying the node's own
`first_seen_at` and `last_seen_at` as the edge's timestamps. -/
theorem claim_C8_containment_edges (t : ResourceTreeNode) :
    containsEdges ((upsertResourceTreeNode [] [] t).1) = specContainsEdgesT [] t ∧
    (containsEdges ((upsertResourceTreeNode [] [] t).1)).length = countNodes t := by
  have h : containsEdges ((upsertResourceTreeNode [] [] t).1)
      = specContainsEdgesT [] t := by
    rw [upsertResourceTreeNode_eq]
    simp only [List.nil_append]
    exact containsEdges_nodeStmts t []
  exact ⟨h, by rw [h]; exact specContainsEdgesT_length t []⟩

/-! ### Transaction executor lemmas -/

/-- The fold behind `minByKey` returns an element of the accumulator or
the list. -/
theorem minByKey_fold_mem :
    ∀ (l : List (Nat × DbError)) (acc : Option (Nat × DbError)) (m : Nat × DbError),
      l.foldl (fun acc x =>
        match acc with
        | none => some x
        | some y => if x.1 < y.1 then some x else some y) acc = some m →
      acc = some m ∨ m ∈ l := by
  intro l
  induction l with
  | nil => intro acc m h; exact Or.inl h
  | cons x xs ih =>
    intro acc m h
    rcases ih _ m h with h' | h'
    · cases acc with
      | none =>
        simp only at h'
        injection h' with h''
        exact Or.inr (by simp [← h''])
      | some y =>
        simp only at h'
        by_cases hxy : x.1 < y.1
        · rw [if_pos hxy] at h'
          injection h' with h''
          exact Or.inr (by simp [← h''])
        · rw [if_neg hxy] at h'
          exact Or.inl h'
    · exact Or.inr (List.mem_cons_of_mem x h')

/-- The fold behind `minByKey` returns a key that is minimal among the
list's keys and at most the accumulator's key. -/
theorem minByKey_fold_le :
    ∀ (l : List (Nat × DbError)) (acc : Option (Nat × DbError)) (m : Nat × DbError),
      l.foldl (fun acc x =>
        match acc with
        | none => some x
        | some y => if x.1 < y.1 then some x else some y) acc = some m →
      (∀ x ∈ l, m.1 ≤ x.1) ∧ (∀ y, acc = some y → m.1 ≤ y.1) := by
  intro l
  induction l with
  | nil =>
    intro acc m h
    refine ⟨by simp, ?_⟩
    intro y hy
    rw [hy] at h
    injection h with h'
    rw [h']
  | cons x xs ih =>
    intro acc m h
    obtain ⟨h1, h2⟩ := ih _ m h
    have hx : m.1 ≤ x.1 := by
      cases acc with
      | none => exact h2 x rfl
      | some y =>
        by_cases hxy : x.1 < y.1
        · exact h2 x (by simp [hxy])
        · exact le_trans (h2 y (by simp [hxy])) (Nat.le_of_not_lt hxy)
    refine ⟨?_, ?_⟩
    · intro z hz
      rcases List.mem_cons.mp hz with rfl | hz'
      · exact hx
      · exact h1 z hz'
    · intro y hy
      subst hy
      by_cases hxy : x.1 < y.1
      · exact le_trans (h2 x (by simp [hxy])) (Nat.le_of_lt hxy)
      · exact h2 y (by simp [hxy])

/-- The fold behind `minByKey` yields a value on a non-empty list. -/
theorem minByKey_fold_isSome :
    ∀ (l : List (Nat × DbError)) (acc : Option (Nat × DbError)),
      acc.isSome = true ∨ l ≠ [] →
      (l.foldl (fun acc x =>
        match acc with
        | none => some x
        | some y => if x.1 < y.1 then some x else some y) acc).isSome = true := by
  intro l
  induction l with
  | nil =>
    intro acc h
    rcases h with h | h
    · exact h
    · exact absurd rfl h
  | cons x xs ih =>
    intro acc _
    refine ih _ (Or.inl ?_)
    cases acc with
    | none => rfl
    | some y => by_cases hxy : x.1 < y.1 <;> simp [hxy]

/-- C6: on an empty per-statement error list the executor succeeds; if
some carried error is not the generic not-executed status, the executor
returns the error of the lowest-numbered such statement; if every carried
error is the generic not-executed status, it still returns an error (the
logged invariant-violation case), never success. -/
theorem claim_C6_first_real_error (errors : List (Nat × DbError)) :
    (errors = [] → checkFirstRealError errors = Except.ok ()) ∧
    (∀ k e, (k, e) ∈ errors → isRealError e = true →
      ∃ k' e', checkFirstRealError errors = Except.error e' ∧
        (k', e') ∈ errors ∧ isRealError e' = true ∧
        ∀ k'' e'', (k'', e'') ∈ errors → isRealError e'' = true → k' ≤ k'') ∧
    (errors ≠ [] → (∀ p ∈ errors, p.2 = DbError.queryNotExecuted) →
      checkFirstRealError errors = Except.error DbError.queryNotExecuted) := by
  refine ⟨?_, ?_, ?_⟩
  · intro h
    subst h
    rfl
  · intro k e hmem hreal
    have hne : errors.isEmpty = false := by
      cases errors with
      | nil => cases hmem
      | cons x xs => rfl
    have hfilter : (k, e) ∈ errors.filter fun p => isRealError p.2 :=
      List.mem_filter.mpr ⟨hmem, hreal⟩
    have hsome : (minByKey (errors.filter fun p => isRealError p.2)).isSome = true := by
      refine minByKey_fold_isSome _ none (Or.inr ?_)
      intro hnil
      rw [hnil] at hfilter
      cases hfilter
    obtain ⟨m, hm⟩ := Option.isSome_iff_exists.mp hsome
    have hmem' := minByKey_fold_mem _ none m hm
    have hle := (minByKey_fold_le _ none m hm).1
    rcases hmem' with h' | h'
    · cases h'
    · obtain ⟨hmE, hmR⟩ := List.mem_filter.mp h'
      refine ⟨m.1, m.2, ?_, by simpa using hmE, hmR, ?_⟩
      · simp only [checkFirstRealError, hne, Bool.false_eq_true, if_false]
        rw [show minByKey (errors.filter fun p => isRealError p.2) = some m from hm]
      · intro k'' e'' hmem'' hreal''
        exact hle (k'', e'') (List.mem_filter.mpr ⟨hmem'', hreal''⟩)
  · intro hne hall
    have hisnone : errors.isEmpty = false := by
      cases errors with
      | nil => exact absurd rfl hne
      | cons x xs => rfl
    have hfilter : (errors.filter fun p => isRealError p.2) = [] := by
      rw [List.filter_eq_nil_iff]
      intro p hp
      rw [hall p hp]
      simp [isRealError]
    simp only [checkFirstRealError, hisnone, Bool.false_eq_true, if_false, hfilter]
    rfl

/-- C6 witness: the three behaviours on concrete error lists — success on
empty, the lowest-numbered concrete error (statement 1) on a mixed list,
and an error when only not-executed statuses are present. -/
theorem claim_C6_first_real_error_witness :
    checkFirstRealError [] = Except.ok () ∧
    (∃ k' e', checkFirstRealError errsC6 = Except.error e' ∧
      (k', e') ∈ errsC6 ∧ isRealError e' = true ∧
      ∀ k'' e'', (k'', e'') ∈ errsC6 → isRealError e'' = true → k' ≤ k'') ∧
    checkFirstRealError [(0, DbError.queryNotExecuted)]
      = Except.error DbError.queryNotExecuted :=
  ⟨(claim_C6_first_real_error []).1 rfl,
    (claim_C6_first_real_error errsC6).2.1 2 (DbError.other "boom")
      (by decide) (by decide),
    (claim_C6_first_real_error [(0, DbError.queryNotExecuted)]).2.2
      (by decide) (by decide)⟩

/-! ### Query response shape -/

/-- C9 (counterexample): a response whose computed event list is empty —
`events = Some([])`, as the query's FINISH object always binds `$events`
to an array — still serializes an `events` field, because the serde skip
condition is `Option::is_none`, not emptiness. -/
theorem claim_C9_counterexample :
    (QueryResponse.mk [] [] (some [])).events = some [] ∧
    "events" ∈ serializedFields (QueryResponse.mk [] [] (some [])) := by
  decide

/-- C9 (amended): the serialized response always contains `resources`,
omits `global_containers` exactly when that list is empty, and omits
`events` exactly when the `events` option is `None` — an empty computed
event list (`Some([])`) is serialized as an empty `events` array. -/
theorem claim_C9_response_fields (r : QueryResponse) :
    "resources" ∈ serializedFields r ∧
    ("global_containers" ∈ serializedFields r ↔ r.global_containers.isEmpty = false) ∧
    ("events" ∈ serializedFields r ↔ r.events.isSome = true) := by
  rcases r with ⟨rs, gc, ev⟩
  cases ev <;> by_cases h : gc.isEmpty <;>
    simp_all [serializedFields]

/-! ### Report credential codec lemmas -/

/-- `take` of an append at the first part's length. -/
theorem take_len_append {α : Type} (l₁ l₂ : List α) :
    (l₁ ++ l₂).take l₁.length = l₁ := by
  induction l₁ with
  | nil => rfl
  | cons x xs ih => simp [ih]

/-- `drop` of an append at the first part's length. -/
theorem drop_len_append {α : Type} (l₁ l₂ : List α) :
    (l₁ ++ l₂).drop l₁.length = l₂ := by
  induction l₁ with
  | nil => rfl
  | cons x xs ih => simp [ih]

/-- `byteAt` of an append at the first part's length. -/
theorem byteAt_len_append (l₁ l₂ : List Nat) :
    byteAt (l₁ ++ l₂) l₁.length = byteAt l₂ 0 := by
  induction l₁ with
  | nil => rfl
  | cons x xs ih => simpa [byteAt] using ih

/-- The toy AEAD satisfies the aes-gcm contract. -/
theorem toyAEAD_sound : AEAD.Sound toyAEAD := by
  constructor
  · intro key nonce aad msg
    have hlen : (msg ++ List.replicate 16 (0 : Nat)).length = msg.length + 16 := by
      simp
    simp only [toyAEAD, hlen]
    rw [if_pos (by omega)]
    rw [show msg.length + 16 - 16 = msg.length from by omega]
    rw [take_len_append]
  · intro key nonce aad msg
    simp [toyAEAD]
  · intro key nonce aad msg hm b hb
    simp only [toyAEAD] at hb
    rcases List.mem_append.mp hb with h | h
    · exact hm b h
    · have := List.eq_of_mem_replicate h
      omega

/-- Alphabet round trip on sextets. -/
theorem charSextet_sextetChar : ∀ n, n < 64 → charSextet (sextetChar n) = some n := by
  decide

/-- Alphabet characters are never the padding character. -/
theorem sextetChar_ne_pad : ∀ n, n < 64 → ¬ (sextetChar n = '=') := by
  decide

/-- Decoding inverts encoding on byte strings. -/
theorem decodeB64_encodeB64 :
    ∀ (bs : List Nat), (∀ b ∈ bs, b < 256) → decodeB64 (encodeB64 bs) = some bs
  | [], _ => rfl
  | [a], h => by
    have ha : a < 256 := h a (by simp)
    have h1 := charSextet_sextetChar (a / 4) (by omega)
    have h2 := charSextet_sextetChar (a % 4 * 16) (by omega)
    simp only [encodeB64, decodeB64, h1, h2]
    have hmod : a % 4 * 16 % 16 = 0 := by omega
    simp [hmod]
    all_goals omega
  | [a, b], h => by
    have ha : a < 256 := h a (by simp)
    have hb : b < 256 := h b (by simp)
    have h1 := charSextet_sextetChar (a / 4) (by omega)
    have h2 := charSextet_sextetChar (a % 4 * 16 + b / 16) (by omega)
    have h3 := charSextet_sextetChar (b % 16 * 4) (by omega)
    have hne3 : ¬ (sextetChar (b % 16 * 4) = '=') := sextetChar_ne_pad _ (by omega)
    simp only [encodeB64, decodeB64, h1, h2, h3]
    rw [if_neg hne3]
    have hmod : b % 16 * 4 % 4 = 0 := by omega
    simp [hmod]
    all_goals omega
  | a :: b :: c :: rest, h => by
    have ha : a < 256 := h a (by simp)
    have hb : b < 256 := h b (by simp)
    have hc : c < 256 := h c (by simp)
    have ih := decodeB64_encodeB64 rest (by
      intro x hx
      exact h x (by simp [hx]))
    have h1 := charSextet_sextetChar (a / 4) (by omega)
    have h2 := charSextet_sextetChar (a % 4 * 16 + b / 16) (by omega)
    have h3 := charSextet_sextetChar (b % 16 * 4 + c / 64) (by omega)
    have h4 := charSextet_sextetChar (c % 64) (by omega)
    have hne3 : ¬ (sextetChar (b % 16 * 4 + c / 64) = '=') :=
      sextetChar_ne_pad _ (by omega)
    have hne4 : ¬ (sextetChar (c % 64) = '=') := sextetChar_ne_pad _ (by omega)
    simp only [encodeB64, decodeB64, h1, h2, h3, h4]
    rw [if_neg hne3, if_neg hne4]
    simp [ih]
    all_goals omega

/-- Stripping a leading pattern from itself plus a remainder. -/
theorem stripPre_append {α : Type} [DecidableEq α] :
    ∀ (p s : List α), stripPre p (p ++ s) = some s
  | [], s => rfl
  | x :: xs, s => by simp [stripPre, stripPre_append xs s]

/-- Splitting at the first separator when the left part avoids it. -/
theorem splitFirst_append (sep : Char) :
    ∀ (a b : List Char), sep ∉ a → splitFirst sep (a ++ sep :: b) = some (a, b)
  | [], b, _ => by simp [splitFirst]
  | c :: cs, b, h => by
    have hc : ¬ (c = sep) := by
      intro hcs
      exact h (by simp [hcs])
    have ih := splitFirst_append sep cs b (fun hm => h (List.mem_cons_of_mem c hm))
    simp [splitFirst, hc, ih]

/-- Digit value round trip. -/
theorem digitVal_digitChar : ∀ d, d < 10 → digitVal (digitChar d) = d := by
  decide

/-- Digit characters are digits. -/
theorem isDigit_digitChar : ∀ d, d < 10 → isDigit (digitChar d) = true := by
  decide

/-- Digit characters are not `'+'`, not `'_'`, and are single bytes. -/
theorem isDigit_props (c : Char) (h : isDigit c = true) :
    ¬ (c = '+') ∧ ¬ (c = '_') ∧ c.toNat < 256 := by
  refine ⟨?_, ?_, ?_⟩
  · intro hc
    subst hc
    exact absurd h (by decide)
  · intro hc
    subst hc
    exact absurd h (by decide)
  · simp only [isDigit, Bool.and_eq_true, decide_eq_true_eq] at h
    omega

/-- The fuel-bounded digit expansion evaluates back to its input. -/
theorem digitsGo_foldl :
    ∀ (fuel n : Nat), n < fuel →
      (digitsGo fuel n).foldl (fun a c => a * 10 + digitVal c) 0 = n := by
  intro fuel
  induction fuel with
  | zero => intro n h; omega
  | succ fuel ih =>
    intro n h
    by_cases h0 : n = 0
    · subst h0; simp [digitsGo]
    · have hdiv : n / 10 < fuel := by
        have := Nat.div_lt_self (Nat.pos_of_ne_zero h0) (show 1 < 10 by omega)
        omega
      have hv := ih (n / 10) hdiv
      simp only [digitsGo, if_neg h0, List.foldl_append, hv, List.foldl_cons,
        List.foldl_nil]
      rw [digitVal_digitChar (n % 10) (by omega)]
      omega

/-- The fuel-bounded digit expansion produces digit characters. -/
theorem digitsGo_digits :
    ∀ (fuel n : Nat) (c : Char), c ∈ digitsGo fuel n → isDigit c = true := by
  intro fuel
  induction fuel with
  | zero => intro n c hc; simp [digitsGo] at hc
  | succ fuel ih =>
    intro n c hc
    by_cases h0 : n = 0
    · subst h0; simp [digitsGo] at hc
    · simp only [digitsGo, if_neg h0, List.mem_append, List.mem_singleton] at hc
      rcases hc with hc | hc
      · exact ih _ _ hc
      · subst hc; exact isDigit_digitChar _ (by omega)

/-- The decimal rendering evaluates back to its input. -/
theorem natDigits_foldl (n : Nat) :
    (natDigits n).foldl (fun a c => a * 10 + digitVal c) 0 = n := by
  by_cases h0 : n = 0
  · subst h0; decide
  · simp only [natDigits, if_neg h0]
    exact digitsGo_foldl (n + 1) n (by omega)

/-- The decimal rendering is all digit characters. -/
theorem natDigits_digits (n : Nat) : ∀ c ∈ natDigits n, isDigit c = true := by
  intro c hc
  by_cases h0 : n = 0
  · subst h0
    simp [natDigits] at hc
    subst hc
    decide
  · simp only [natDigits, if_neg h0] at hc
    exact digitsGo_digits _ _ _ hc

/-- The decimal rendering is never empty. -/
theorem natDigits_ne_nil (n : Nat) : natDigits n ≠ [] := by
  by_cases h0 : n = 0
  · subst h0; simp [natDigits]
  · simp [natDigits, digitsGo, h0]

/-- The separator does not occur among decimal digits. -/
theorem underscore_notin_natDigits (n : Nat) : ¬ ('_' ∈ natDigits n) := by
  intro hm
  exact absurd (natDigits_digits n _ hm) (by decide)

/-- `parse::<u32>` on a non-empty all-digit string evaluates the
digits. -/
theorem parseU32_digit_list (s : List Char) (h1 : s ≠ [])
    (h2 : ∀ c ∈ s, isDigit c = true)
    (h3 : s.foldl (fun a c => a * 10 + digitVal c) 0 ≤ 4294967295) :
    parseU32 s = some (s.foldl (fun a c => a * 10 + digitVal c) 0) := by
  cases s with
  | nil => exact absurd rfl h1
  | cons c cs =>
    have hc := h2 c (by simp)
    have hcp := (isDigit_props c hc).1
    have hall : (c :: cs).all isDigit = true := List.all_eq_true.mpr h2
    simp only [parseU32, if_neg hcp]
    simp at h3
    simp [hall, h3]

/-- Round trip of decimal rendering through `parse::<u32>`. -/
theorem parseU32_natDigits (n : Nat) (h : n ≤ 4294967295) :
    parseU32 (natDigits n) = some n := by
  have h3 := natDigits_foldl n
  rw [parseU32_digit_list (natDigits n) (natDigits_ne_nil n) (natDigits_digits n)
    (by rw [h3]; exact h), h3]

/-- `bytesChars` inverts `utf8`. -/
theorem bytesChars_utf8 (s : List Char) : bytesChars (utf8 s) = s := by
  induction s with
  | nil => rfl
  | cons c cs ih => simp [bytesChars, utf8, Char.ofNat_toNat] at ih ⊢; exact ih

/-- Decimal digits are single bytes. -/
theorem natDigits_bytes (n : Nat) : ∀ c ∈ natDigits n, c.toNat < 256 :=
  fun c hc => (isDigit_props c (natDigits_digits n c hc)).2.2

/-- Validating a freshly minted credential at configured endpoint
`endpoint2` succeeds with the minted account digits and key id exactly
when `endpoint2` is the minting endpoint, and fails otherwise. -/
theorem validate_mint (A : AEAD) (key nonce endpoint endpoint2 : List Nat)
    (tenant kid : Nat) (hA : AEAD.Sound A)
    (hkid1 : 100000 ≤ kid) (hkid2 : kid ≤ 999999)
    (hep : endpoint.length ≤ 255) (hepB : ∀ b ∈ endpoint, b < 256)
    (hn : nonce.length = 12) (hnB : ∀ b ∈ nonce, b < 256)
    (ht : tenant ≤ 4294967295) :
    validateValue A key endpoint2
        (generateValue A key nonce endpoint (natDigits tenant) kid)
      = if endpoint = endpoint2 then some (natDigits tenant, kid) else none := by
  simp only [generateValue]
  set pt := accountPlaintext (natDigits tenant) with hpt
  set aad := aadBytes kid endpoint with haad
  set ct := A.encrypt key nonce aad pt with hct
  set V := [endpoint.length % 256] ++ endpoint ++ [nonce.length % 256] ++ nonce ++ ct
    with hV
  have hepmod : endpoint.length % 256 = endpoint.length := Nat.mod_eq_of_lt (by omega)
  have hnl : nonce.length % 256 = 12 := by rw [hn]
  have hctlen : ct.length = pt.length + 16 := hA.length_encrypt key nonce aad pt
  have hVlen : V.length = endpoint.length + nonce.length + ct.length + 2 := by
    rw [hV]
    simp [List.length_append]
    omega
  have hptB : ∀ b ∈ pt, b < 256 := by
    intro b hb
    rw [hpt] at hb
    simp only [accountPlaintext, utf8, List.mem_map] at hb
    obtain ⟨c, hc, rfl⟩ := hb
    rcases List.mem_append.mp hc with h | h
    · have hascii : ∀ c ∈ "account_id=".toList, c.toNat < 256 := by decide
      exact hascii c h
    · exact natDigits_bytes tenant c h
  have hctB : ∀ b ∈ ct, b < 256 := by
    rw [hct]
    exact hA.bytes_encrypt key nonce aad pt hptB
  have hVB : ∀ b ∈ V, b < 256 := by
    intro b hb
    rw [hV] at hb
    have hb' : b = endpoint.length % 256 ∨ b ∈ endpoint ∨ b = nonce.length % 256
        ∨ b ∈ nonce ∨ b ∈ ct := by
      simp only [List.append_assoc, List.singleton_append, List.mem_cons,
        List.mem_append] at hb
      tauto
    rcases hb' with rfl | hb' | rfl | hb' | hb'
    · exact Nat.mod_lt _ (by omega)
    · exact hepB b hb'
    · exact Nat.mod_lt _ (by omega)
    · exact hnB b hb'
    · exact hctB b hb'
  have e2 : splitFirst '_' (natDigits kid ++ '_' :: encodeB64 V)
      = some (natDigits kid, encodeB64 V) :=
    splitFirst_append '_' _ _ (underscore_notin_natDigits kid)
  have e3 : parseU32 (natDigits kid) = some kid := parseU32_natDigits kid (by omega)
  have e4 : kidRangeOk kid = true := by
    simp only [kidRangeOk, Bool.and_eq_true, decide_eq_true_eq]
    omega
  have e5 : decodeB64 (encodeB64 V) = some V := decodeB64_encodeB64 V hVB
  have e6 : ¬ (V.length = 0) := by omega
  have g0 : byteAt V 0 = endpoint.length := by
    rw [hV]
    simp [List.singleton_append, byteAt]
    omega
  have g1 : 1 + endpoint.length < V.length := by omega
  have hVsplit1 : V = (endpoint.length % 256 :: endpoint)
      ++ ([nonce.length % 256] ++ nonce ++ ct) := by
    rw [hV]
    simp [List.append_assoc]
  have g2 : (V.drop 1).take endpoint.length = endpoint := by
    rw [hVsplit1]
    rw [show ((endpoint.length % 256 :: endpoint)
        ++ ([nonce.length % 256] ++ nonce ++ ct)).drop 1
      = endpoint ++ ([nonce.length % 256] ++ nonce ++ ct) from rfl]
    exact take_len_append endpoint _
  have g3 : 1 + endpoint.length + 1 < V.length := by omega
  have g4 : byteAt V (1 + endpoint.length) = 12 := by
    rw [hVsplit1]
    rw [show 1 + endpoint.length = (endpoint.length % 256 :: endpoint).length from by
      simp [Nat.add_comm]]
    rw [byteAt_len_append]
    simpa [byteAt] using hnl
  have g5 : 1 + endpoint.length + 12 + 1 < V.length := by omega
  have hVsplit2 : V = ((endpoint.length % 256 :: endpoint) ++ [nonce.length % 256])
      ++ (nonce ++ ct) := by
    rw [hV]
    simp [List.append_assoc]
  have g6 : (V.drop (1 + endpoint.length + 1)).take 12 = nonce := by
    rw [hVsplit2]
    rw [show 1 + endpoint.length + 1
        = ((endpoint.length % 256 :: endpoint) ++ [nonce.length % 256]).length from by
      simp [Nat.add_comm]]
    rw [drop_len_append, ← hn]
    exact take_len_append nonce ct
  have hVsplit3 : V = ((endpoint.length % 256 :: endpoint)
      ++ [nonce.length % 256] ++ nonce) ++ ct := by
    rw [hV]
    simp [List.append_assoc]
  have g7 : V.drop (1 + endpoint.length + 1 + 12) = ct := by
    rw [hVsplit3]
    rw [show 1 + endpoint.length + 1 + 12
        = ((endpoint.length % 256 :: endpoint) ++ [nonce.length % 256] ++ nonce).length
      from by simp [hn]; omega]
    exact drop_len_append _ ct
  have e7 : A.decrypt key nonce (aadBytes kid endpoint) ct = some pt := by
    rw [hct, ← haad]
    exact hA.decrypt_encrypt key nonce aad pt
  have e8 : stripPre acctTag pt = some (utf8 (natDigits tenant)) := by
    rw [hpt]
    simp only [acctTag, accountPlaintext, utf8, List.map_append]
    exact stripPre_append _ _
  have e9 : parseU32 (bytesChars (utf8 (natDigits tenant))) = some tenant := by
    rw [bytesChars_utf8]
    exact parseU32_natDigits tenant ht
  simp only [List.append_assoc, List.singleton_append]
  simp only [validateValue, stripPre_append, e2, e3, e4, if_true, e5]
  rw [if_neg e6]
  simp only [g0, g2]
  rw [if_pos g1]
  by_cases hend : endpoint = endpoint2
  · rw [if_pos hend, if_pos hend, if_pos g3]
    simp only [g4]
    rw [if_pos g5]
    simp only [if_true]
    simp only [g6, g7, ← hend, e7, e8, e9, bytesChars_utf8,
      parseU32_natDigits tenant ht]
  · rw [if_neg hend, if_neg hend]

/-- Inversion of `validateValue`: a successful validation certifies every
check of the chain — prefix present, key id parsed and in range, base64
decoded, embedded endpoint equal to the configured endpoint, AEAD
decryption authenticated under the associated data derived from the key id
and endpoint, and plaintext matching the account-id template with the
digits parsing as the tenant id type. -/
theorem validateValue_inversion (A : AEAD) (key endpoint : List Nat)
    (s : List Char) (acct : List Char) (kid : Nat)
    (h : validateValue A key endpoint s = some (acct, kid)) :
    ∃ rest kidStr payload value pt acctBytes tenant,
      stripPre keyTag s = some rest ∧
      splitFirst '_' rest = some (kidStr, payload) ∧
      parseU32 kidStr = some kid ∧
      kidRangeOk kid = true ∧
      decodeB64 payload = some value ∧
      (value.drop 1).take (byteAt value 0) = endpoint ∧
      A.decrypt key ((value.drop (1 + byteAt value 0 + 1)).take 12)
          (aadBytes kid endpoint) (value.drop (1 + byteAt value 0 + 1 + 12))
        = some pt ∧
      stripPre acctTag pt = some acctBytes ∧
      parseU32 (bytesChars acctBytes) = some tenant ∧
      acct = bytesChars acctBytes := by
  simp only [validateValue] at h
  cases h1 : stripPre keyTag s with
  | none => simp [h1] at h
  | some rest =>
  simp only [h1] at h
  cases h2 : splitFirst '_' rest with
  | none => simp [h2] at h
  | some kv =>
  simp only [h2] at h
  cases h3 : parseU32 kv.1 with
  | none => simp [h3] at h
  | some kid2 =>
  simp only [h3] at h
  by_cases h4 : kidRangeOk kid2 = true
  swap
  · rw [if_neg h4] at h
    exact Option.noConfusion h
  rw [if_pos h4] at h
  cases h5 : decodeB64 kv.2 with
  | none => simp [h5] at h
  | some value =>
  simp only [h5] at h
  by_cases h6 : value.length = 0
  · rw [if_pos h6] at h
    exact Option.noConfusion h
  rw [if_neg h6] at h
  by_cases h7 : 1 + byteAt value 0 < value.length
  swap
  · rw [if_neg h7] at h
    exact Option.noConfusion h
  rw [if_pos h7] at h
  by_cases h8 : (value.drop 1).take (byteAt value 0) = endpoint
  swap
  · rw [if_neg h8] at h
    exact Option.noConfusion h
  rw [if_pos h8] at h
  by_cases h9 : 1 + byteAt value 0 + 1 < value.length
  swap
  · rw [if_neg h9] at h
    exact Option.noConfusion h
  rw [if_pos h9] at h
  by_cases h10 : 1 + byteAt value 0 + byteAt value (1 + byteAt value 0) + 1
      < value.length
  swap
  · rw [if_neg h10] at h
    exact Option.noConfusion h
  rw [if_pos h10] at h
  by_cases h11 : byteAt value (1 + byteAt value 0) = 12
  swap
  · rw [if_neg h11] at h
    exact Option.noConfusion h
  rw [if_pos h11] at h
  rw [h11, h8] at h
  cases h12 : A.decrypt key ((value.drop (1 + byteAt value 0 + 1)).take 12)
      (aadBytes kid2 endpoint) (value.drop (1 + byteAt value 0 + 1 + 12)) with
  | none => simp [h12] at h
  | some pt =>
  simp only [h12] at h
  cases h13 : stripPre acctTag pt with
  | none => simp [h13] at h
  | some acctBytes =>
  try simp only [h13] at h
  cases h14 : parseU32 (bytesChars acctBytes) with
  | none => simp [h14] at h
  | some tenant =>
  try simp only [h14] at h
  rw [Option.some.injEq, Prod.mk.injEq] at h
  obtain ⟨hacct, hkid⟩ := h
  subst hkid
  refine ⟨rest, kv.1, kv.2, value, pt, acctBytes, tenant,
    rfl, ?_, h3, h4, h5, h8, h12, h13, h14, hacct.symm⟩
  rw [h2]

/-- C2: for every valid tenant id, key id in the minting range, endpoint
whose byte length fits the one-byte length field, and AEAD satisfying the
aes-gcm contract, validating a freshly minted credential at the minting
endpoint returns exactly the tenant digits and key id, and validating the
same credential at any different configured endpoint fails. -/
theorem claim_C2_mint_validate_roundtrip (A : AEAD)
    (key nonce endpoint : List Nat) (tenant kid : Nat) (hA : AEAD.Sound A)
    (hkid1 : 100000 ≤ kid) (hkid2 : kid ≤ 999999)
    (hep : endpoint.length ≤ 255) (hepB : ∀ b ∈ endpoint, b < 256)
    (hn : nonce.length = 12) (hnB : ∀ b ∈ nonce, b < 256)
    (ht : tenant ≤ 4294967295) :
    validateValue A key endpoint
        (generateValue A key nonce endpoint (natDigits tenant) kid)
      = some (natDigits tenant, kid) ∧
    ∀ endpoint2, endpoint2 ≠ endpoint →
      validateValue A key endpoint2
          (generateValue A key nonce endpoint (natDigits tenant) kid)
        = none := by
  constructor
  · rw [validate_mint A key nonce endpoint endpoint tenant kid hA hkid1 hkid2
      hep hepB hn hnB ht]
    simp
  · intro endpoint2 hne
    rw [validate_mint A key nonce endpoint endpoint2 tenant kid hA hkid1 hkid2
      hep hepB hn hnB ht]
    rw [if_neg (fun hh => hne hh.symm)]

/-- C2 witness: tenant 42, key id 100007, endpoint `"ep1"`, with the toy
AEAD; validation succeeds at `"ep1"` and fails at `"ep2"`. -/
theorem claim_C2_mint_validate_roundtrip_witness :
    validateValue toyAEAD [] epOne
        (generateValue toyAEAD [] (List.replicate 12 0) epOne (natDigits 42) 100007)
      = some (natDigits 42, 100007) ∧
    validateValue toyAEAD [] epTwo
        (generateValue toyAEAD [] (List.replicate 12 0) epOne (natDigits 42) 100007)
      = none := by
  have h := claim_C2_mint_validate_roundtrip toyAEAD [] (List.replicate 12 0)
    epOne 42 100007 toyAEAD_sound (by decide) (by decide) (by decide) (by decide)
    (by decide) (by decide) (by decide)
  exact ⟨h.1, h.2 epTwo (by decide)⟩

/-- C7: validation returns a `(tenant, key id)` pair only when the whole
fail-closed chain succeeds: the fixed prefix is present, the key id before
the first underscore parses and lies in range, the payload base64-decodes,
the embedded endpoint bytes equal the deployment endpoint (byte equality,
i.e. UTF-8 validity plus string equality), AEAD decryption authenticates
under the associated data derived from the key id and endpoint, and the
plaintext is `"account_id="` followed by text parsing as the tenant id
type. -/
theorem claim_C7_validate_fails_closed (A : AEAD) (key endpoint : List Nat)
    (s : List Char) (acct : List Char) (kid : Nat)
    (h : validateValue A key endpoint s = some (acct, kid)) :
    ∃ rest kidStr payload value pt acctBytes tenant,
      stripPre keyTag s = some rest ∧
      splitFirst '_' rest = some (kidStr, payload) ∧
      parseU32 kidStr = some kid ∧
      kidRangeOk kid = true ∧
      decodeB64 payload = some value ∧
      (value.drop 1).take (byteAt value 0) = endpoint ∧
      A.decrypt key ((value.drop (1 + byteAt value 0 + 1)).take 12)
          (aadBytes kid endpoint) (value.drop (1 + byteAt value 0 + 1 + 12))
        = some pt ∧
      stripPre acctTag pt = some acctBytes ∧
      parseU32 (bytesChars acctBytes) = some tenant ∧
      acct = bytesChars acctBytes :=
  validateValue_inversion A key endpoint s acct kid h

/-- C7 witness: the success hypothesis discharged by evaluating a concrete
minted credential. -/
theorem claim_C7_validate_fails_closed_witness :
    ∃ rest kidStr payload value pt acctBytes tenant,
      stripPre keyTag
          (generateValue toyAEAD [] (List.replicate 12 0) epOne (natDigits 42) 100007)
        = some rest ∧
      splitFirst '_' rest = some (kidStr, payload) ∧
      parseU32 kidStr = some 100007 ∧
      kidRangeOk 100007 = true ∧
      decodeB64 payload = some value ∧
      (value.drop 1).take (byteAt value 0) = epOne ∧
      toyAEAD.decrypt [] ((value.drop (1 + byteAt value 0 + 1)).take 12)
          (aadBytes 100007 epOne) (value.drop (1 + byteAt value 0 + 1 + 12))
        = some pt ∧
      stripPre acctTag pt = some acctBytes ∧
      parseU32 (bytesChars acctBytes) = some tenant ∧
      natDigits 42 = bytesChars acctBytes :=
  claim_C7_validate_fails_closed toyAEAD [] epOne
    (generateValue toyAEAD [] (List.replicate 12 0) epOne (natDigits 42) 100007)
    (natDigits 42) 100007 (by decide)

/-- C10: every created report key id lies in the six-digit range
100000..=999999, validation only ever returns key ids passing the range
check, and hence every created key id passes the validator's range
check. -/
theorem claim_C10_key_id_range (seed : Nat) (d : Option String) (u : String)
    (A : AEAD) (key endpoint : List Nat) (s acct : List Char) (kid : Nat) :
    (100000 ≤ (ReportKey.new seed d u).id ∧ (ReportKey.new seed d u).id ≤ 999999) ∧
    (validateValue A key endpoint s = some (acct, kid) → kidRangeOk kid = true) ∧
    kidRangeOk (ReportKey.new seed d u).id = true := by
  have hm : seed % 900000 < 900000 := Nat.mod_lt _ (by omega)
  have hid : 100000 ≤ (ReportKey.new seed d u).id ∧
      (ReportKey.new seed d u).id ≤ 999999 := by
    simp only [ReportKey.new, genRange]
    omega
  refine ⟨hid, ?_, ?_⟩
  · intro h
    obtain ⟨rest, kidStr, payload, value, pt, acctBytes, tenant,
      _, _, _, h4, _⟩ := validateValue_inversion A key endpoint s acct kid h
    exact h4
  · simp only [kidRangeOk, Bool.and_eq_true, decide_eq_true_eq]
    omega

/-- C10 witness: a concrete seed and a concrete successful validation. -/
theorem claim_C10_key_id_range_witness :
    (100000 ≤ (ReportKey.new 5 none "alice").id ∧
      (ReportKey.new 5 none "alice").id ≤ 999999) ∧
    kidRangeOk 100007 = true ∧
    kidRangeOk (ReportKey.new 5 none "alice").id = true := by
  have h := claim_C10_key_id_range 5 none "alice" toyAEAD [] epOne
    (generateValue toyAEAD [] (List.replicate 12 0) epOne (natDigits 42) 100007)
    (natDigits 42) 100007
  exact ⟨h.1, h.2.1 (by decide), h.2.2⟩

end Archodex

